import Mathlib

/-!
Verification of the timing, subtitle-formatting, reconciliation and
assembly-pipeline logic of the wiki-video generator.

Texts are modelled as `List Char`, times as exact rationals `ℚ`
(Python floats are modelled by exact rational arithmetic; `%` on
non-negative values is `pyMod`, `int()` on non-negative values is
`Int.floor`).  External processes (ffprobe / ffmpeg) are modelled by
boolean success oracles and opaque output contents; the file system is
an association list from path to content.
-/

/-- ASCII whitespace, as stripped by Python `str.strip()` / `str.split()`. -/
def pyIsSpace (c : Char) : Bool :=
  c == ' ' || c == '\t' || c == '\n' || c == '\r' || c == '\x0b' || c == '\x0c'

/-- Python `str.strip()` on a character list. -/
def pystrip (s : List Char) : List Char :=
  ((s.dropWhile pyIsSpace).reverse.dropWhile pyIsSpace).reverse

/-- Sum of the lengths of a list of texts (`sum(len(s) for s in sentences)`). -/
def totalLen (l : List (List Char)) : ℕ :=
  (l.map List.length).sum

/-- Python float `%` (`a % b = a - b * floor(a / b)`), for `b > 0`. -/
def pyMod (a b : ℚ) : ℚ :=
  a - b * (⌊a / b⌋ : ℚ)

/-- Python `int()` (truncation toward zero) on a rational. -/
def pyInt (q : ℚ) : ℤ :=
  if 0 ≤ q then ⌊q⌋ else ⌈q⌉

/-- One subtitle cue: start/end offsets in seconds plus its text. -/
structure Cue where
  startTime : ℚ
  endTime : ℚ
  text : List Char
  deriving Repr, DecidableEq

/-- The timing loop of `create_subtitles_for_audio` (fix-subtitles.py,
lines 48–70): sentences whose `strip()` is empty are skipped, every other
sentence gets `duration = audio_duration * (len(sentence) / total_chars)`
and the cues are laid end to end from the running clock `t`. -/
def cueLoop (total : ℚ) (tc : ℕ) (t : ℚ) : List (List Char) → List Cue
  | [] => []
  | s :: rest =>
    if pystrip s = [] then cueLoop total tc t rest
    else
      let d := total * ((s.length : ℚ) / (tc : ℚ))
      { startTime := t, endTime := t + d, text := pystrip s } :: cueLoop total tc (t + d) rest

/-- `create_subtitles_for_audio` (fix-subtitles.py, lines 36–78), restricted
to its pure timing core: the audio duration is passed in (the ffprobe call
is external I/O) and the sentence list is the already-split script. -/
def create_subtitles_for_audio (total : ℚ) (sentences : List (List Char)) : List Cue :=
  cueLoop total (totalLen sentences) 0 sentences

/-- Zero-pad a natural number to two digits (Python `{n:02d}`). -/
def pad2 (n : ℕ) : String :=
  if n < 10 then "0" ++ toString n else toString n

/-- Zero-pad a natural number to three digits (Python `{n:03d}`). -/
def pad3 (n : ℕ) : String :=
  if n < 10 then "00" ++ toString n
  else if n < 100 then "0" ++ toString n
  else toString n

/-- `format_time` (video_creator.py lines 389–396, identical copy in
fix-subtitles.py lines 15–22): truncated hour/minute/second components and
milliseconds from the fractional remainder, comma separated. -/
def format_time (seconds : ℚ) : String :=
  pad2 (pyInt (seconds / 3600)).toNat ++ ":" ++
    pad2 (pyInt (pyMod seconds 3600 / 60)).toNat ++ ":" ++
    pad2 (pyInt (pyMod seconds 60)).toNat ++ "," ++
    pad3 (pyInt ((seconds - (pyInt seconds : ℚ)) * 1000)).toNat

/-- The SRT timing line `start --> end` emitted for one cue. -/
def timingLine (s e : ℚ) : String :=
  format_time s ++ " --> " ++ format_time e

/-- The cue list starting at clock `t` is contiguous: each cue starts where
the previous one ended (no gaps, no overlaps). -/
def contiguousFrom : ℚ → List Cue → Prop
  | _, [] => True
  | t, c :: rest => c.startTime = t ∧ contiguousFrom c.endTime rest

/-- End offset of the last cue (`t` if there is none). -/
def lastEnd (t : ℚ) (cs : List Cue) : ℚ :=
  cs.foldl (fun _ c => c.endTime) t

/-- Helper for Python `str.split()` with no separator: accumulate the current
word (reversed) and flush it at whitespace, dropping empty pieces. -/
def splitWsAux : List Char → List Char → List (List Char)
  | [], acc => if acc = [] then [] else [acc.reverse]
  | c :: rest, acc =>
    if pyIsSpace c then
      if acc = [] then splitWsAux rest [] else acc.reverse :: splitWsAux rest []
    else splitWsAux rest (c :: acc)

/-- Python `script.split()`: split on whitespace runs, no empty words. -/
def pySplitWs (s : List Char) : List (List Char) :=
  splitWsAux s []

/-- The word-wrapping loop of `generate_subtitles` (video_creator.py,
lines 344–381): accumulate words into lines of at most 60 counted
characters (each word counted with a following separator), flushing a cue
of duration `line_chars / cps` whenever the next word does not fit, and a
final cue for a non-empty leftover line. -/
def genLoop (cps : ℚ) : ℚ → List Char → ℕ → List (List Char) → List Cue
  | t, line, lineChars, [] =>
    if line = [] then [] else [{ startTime := t, endTime := t + (lineChars : ℚ) / cps, text := line }]
  | t, line, lineChars, w :: ws =>
    if lineChars + w.length + 1 ≤ 60 then
      genLoop cps t (if line = [] then w else line ++ ' ' :: w) (lineChars + w.length + 1) ws
    else
      { startTime := t, endTime := t + (lineChars : ℚ) / cps, text := line } ::
        genLoop cps (t + (lineChars : ℚ) / cps) w w.length ws

/-- `generate_subtitles` (video_creator.py, lines 319–387), pure timing core:
the probed audio duration is passed in; `chars_per_second` is adjusted to
`len(script) / audio_duration` when both are positive, else stays 15. -/
def generate_subtitles (total : ℚ) (script : List Char) : List Cue :=
  let cps : ℚ := if 0 < total ∧ 0 < script.length then (script.length : ℚ) / total else 15
  genLoop cps 0 [] 0 (pySplitWs script)

/-- Prepend a character to the first piece of a split result. -/
def consHead (c : Char) : List (List Char) → List (List Char)
  | [] => [[c]]
  | p :: ps => (c :: p) :: ps

/-- Python `script.split('\n\n')` (leftmost, non-overlapping, keeps empties). -/
def splitNN : List Char → List (List Char)
  | [] => [[]]
  | [c] => [[c]]
  | c :: d :: rest =>
    if c = '\n' ∧ d = '\n' then [] :: splitNN rest
    else consHead c (splitNN (d :: rest))

/-- Python `script.split('\n')` (keeps empties). -/
def splitNL : List Char → List (List Char)
  | [] => [[]]
  | c :: rest => if c = '\n' then [] :: splitNL rest else consHead c (splitNL rest)

/-- Sentence-ending punctuation of the regex `(?<=[.!?])\s+`. -/
def isSentEnd (c : Char) : Bool :=
  c == '.' || c == '!' || c == '?'

/-- Whether a character list starts with whitespace (lookahead of the
sentence-splitting regex). -/
def headIsSpace : List Char → Bool
  | [] => false
  | d :: _ => pyIsSpace d

/-- Helper for `re.split(r'(?<=[.!?])\s+', p)`: `skip` is true while the
whitespace run after a sentence boundary is being consumed; `acc` holds the
current piece reversed. -/
def splitSentAux : Bool → List Char → List Char → List (List Char)
  | _, [], acc => [acc.reverse]
  | skip, c :: rest, acc =>
    if skip && pyIsSpace c then splitSentAux true rest acc
    else if isSentEnd c && headIsSpace rest then
      (c :: acc).reverse :: splitSentAux true rest []
    else splitSentAux false rest (c :: acc)

/-- `re.split(r'(?<=[.!?])\s+', p)`: split after sentence punctuation
followed by whitespace, consuming the whitespace run. -/
def splitSentences (s : List Char) : List (List Char) :=
  splitSentAux false s []

/-- The greedy sentence regrouping of `split_script_into_paragraphs`
(video_creator.py, lines 233–244): accumulate sentences while the running
group stays under 300 characters, flushing the stripped group otherwise. -/
def groupLoop300 : List Char → List (List Char) → List (List Char)
  | cur, [] => if cur = [] then [] else [pystrip cur]
  | cur, s :: rest =>
    if cur.length + s.length < 300 then
      groupLoop300 (if cur = [] then s else cur ++ ' ' :: s) rest
    else
      (if cur = [] then [] else [pystrip cur]) ++ groupLoop300 s rest

/-- Third tier of the segmenter: re-split every paragraph into sentences and
regroup them greedily (the per-paragraph groups are concatenated in order). -/
def resplitBySentences (ps : List (List Char)) : List (List Char) :=
  ps.flatMap (fun p => groupLoop300 [] (splitSentences p))

/-- `max(len(p) for p in paragraphs)` (the source only evaluates this when
the list is non-empty, where the fold below agrees with Python's `max`). -/
def maxLenOf (ps : List (List Char)) : ℕ :=
  (ps.map List.length).foldr max 0

/-- `split_script_into_paragraphs` (video_creator.py, lines 217–248):
blank-line split, then single-newline split if fewer than 5 paragraphs,
then sentence re-split if still fewer than 5 or some paragraph exceeds
500 characters. -/
def split_script_into_paragraphs (script : List Char) : List (List Char) :=
  let p1 := ((splitNN script).map pystrip).filter (· ≠ [])
  let p2 := if p1.length < 5 then ((splitNL script).map pystrip).filter (· ≠ []) else p1
  if p2.length < 5 ∨ 500 < maxLenOf p2 then resplitBySentences p2 else p2

/-- The paragraph-merging loop of `create_video_with_segments`
(video_creator.py, lines 526–538): `C` and `A` are the original paragraph
and image counts, `i` the running index; the accumulated group text gets
`p + " "` appended per paragraph and is flushed (stripped) whenever
`(i+1) % (C/A) < 1` or the last paragraph is reached. -/
def mergeLoop (C A : ℕ) : ℕ → List Char → List (List Char) → List (List Char)
  | _, _, [] => []
  | i, cur, p :: rest =>
    if pyMod ((i : ℚ) + 1) ((C : ℚ) / (A : ℚ)) < 1 ∨ i = C - 1 then
      pystrip (cur ++ p ++ [' ']) :: mergeLoop C A (i + 1) [] rest
    else mergeLoop C A (i + 1) (cur ++ p ++ [' ']) rest

/-- `mergeLoop` starting at index 0 with an empty group. -/
def mergeChunks (chunks : List (List Char)) (A : ℕ) : List (List Char) :=
  mergeLoop chunks.length A 0 [] chunks

/-- Twin of `mergeLoop` that records the groups of original chunks instead
of the joined text (used to state order/content preservation). -/
def mergeGroupsLoop (C A : ℕ) : ℕ → List (List Char) → List (List Char) → List (List (List Char))
  | _, _, [] => []
  | i, cur, p :: rest =>
    if pyMod ((i : ℚ) + 1) ((C : ℚ) / (A : ℚ)) < 1 ∨ i = C - 1 then
      (cur ++ [p]) :: mergeGroupsLoop C A (i + 1) [] rest
    else mergeGroupsLoop C A (i + 1) (cur ++ [p]) rest

/-- `mergeGroupsLoop` starting at index 0 with an empty group. -/
def mergeGroups (chunks : List (List Char)) (A : ℕ) : List (List (List Char)) :=
  mergeGroupsLoop chunks.length A 0 [] chunks

/-- The asset-extension loop of `create_video_with_segments`
(video_creator.py, lines 541–542) and `test_video_creator.py`
(lines 231–232): while the chunk count exceeds the asset count, append
`images[len(images) % len(images)]`. -/
def extendAssets : ℕ → List String → List String
  | _, [] => []
  | target, x :: xs =>
    if (x :: xs).length < target then
      extendAssets target
        ((x :: xs) ++
          [(x :: xs).get ⟨(x :: xs).length % (x :: xs).length, Nat.mod_lt _ (Nat.succ_pos _)⟩])
    else x :: xs
termination_by target imgs => target - imgs.length
decreasing_by simp_all; omega

/-- The chunk/asset reconciliation of `create_video_with_segments`
(video_creator.py, lines 525–546): merge chunks when they outnumber
assets, extend assets while they are still short, trim assets when they
outnumber chunks. -/
def reconcile (paragraphs : List (List Char)) (images : List String) :
    List (List Char) × List String :=
  let ps := if images.length < paragraphs.length then mergeChunks paragraphs images.length
            else paragraphs
  let imgs2 := extendAssets ps.length images
  let imgs3 := if ps.length < imgs2.length then imgs2.take ps.length else imgs2
  (ps, imgs3)

/-- One line of the Stage-1 concat manifest (`file '<path>'` or
`duration <seconds>`); the textual quoting of the path is rendering detail
not modelled here. -/
inductive ManifestLine where
  | file (path : String)
  | duration (d : ℚ)
  deriving Repr, DecidableEq

/-- The manifest-writing loop of `create_video_with_segments`
(video_creator.py, lines 562–569): one `file` line and one `duration` line
per (image, duration) pair of `zip(images, paragraph_durations)`. -/
def manifestLoop : List (String × ℚ) → List ManifestLine
  | [] => []
  | (p, d) :: rest => ManifestLine.file p :: ManifestLine.duration d :: manifestLoop rest

/-- The full Stage-1 manifest (video_creator.py, lines 561–574): the zip
loop followed by one more `file` line for the last image. -/
def buildManifest (images : List String) (durs : List ℚ) : List ManifestLine :=
  manifestLoop (images.zip durs) ++
    (match images.getLast? with
     | some p => [ManifestLine.file p]
     | none => [])

/-- File system model: association list from path to content (latest
binding first). -/
abbrev FS := List (String × String)

/-- Read a file (first binding wins). -/
def fsRead (fs : FS) (p : String) : Option String :=
  (fs.find? (fun e => e.1 == p)).map (fun e => e.2)

/-- Write (or overwrite) a file. -/
def fsWrite (fs : FS) (p c : String) : FS :=
  (p, c) :: fs

/-- `os.remove`. -/
def fsRemove (fs : FS) (p : String) : FS :=
  fs.filter (fun e => e.1 != p)

/-- `shutil.copy2 src dst` (byte-identical copy; no-op when the source is
missing, a case the pipeline never reaches). -/
def fsCopy2 (fs : FS) (src dst : String) : FS :=
  match fsRead fs src with
  | some c => fsWrite fs dst c
  | none => fs

/-- Opaque content produced by the subtitle-burn encoder invocation. -/
def burnedSrt (v s : String) : String := "burned-srt:" ++ v ++ ":" ++ s

/-- Opaque content produced by converting an SRT file to ASS. -/
def convertedAss (s : String) : String := "converted-ass:" ++ s

/-- Opaque content produced by the ASS-burn encoder invocation. -/
def burnedAss (v s : String) : String := "burned-ass:" ++ v ++ ":" ++ s

/-- Opaque content produced by the Stage-1 concat encoding. -/
def concatVideo (manifest : String) : String := "concat-video:" ++ manifest

/-- Opaque content produced by the Stage-2 audio mux. -/
def muxed (v a : String) : String := "muxed:" ++ v ++ ":" ++ a

/-- `try_add_subtitles` (video_creator.py, lines 398–508): four encoder
variants, each modelled by a success oracle `o1..o4`; on success the output
file receives the variant's (opaque) result, and when all four fail the
Stage-2 artifact is copied verbatim to the output path and `False` is
returned. -/
def try_add_subtitles (o1 o2 o3 o4 : Bool) (fs0 : FS)
    (videoWithAudio subtitleFile outputFile tempDir : String) : Bool × FS :=
  let simpleSub := tempDir ++ "/simple_subs.srt"
  let fs1 := fsCopy2 fs0 subtitleFile simpleSub
  if o1 then
    (true, fsWrite fs1 outputFile (burnedSrt videoWithAudio simpleSub))
  else
    if o2 then
      let assSub := tempDir ++ "/subtitles.ass"
      let fs2 := fsWrite fs1 assSub (convertedAss subtitleFile)
      (true, fsWrite fs2 outputFile (burnedAss videoWithAudio assSub))
    else if o3 then
      (true, fsWrite fs1 outputFile (burnedSrt videoWithAudio simpleSub))
    else
      let cwdSubs := "current_dir_subs.srt"
      let fs3 := fsCopy2 fs1 subtitleFile cwdSubs
      if o4 then
        (true, fsRemove (fsWrite fs3 outputFile (burnedSrt videoWithAudio cwdSubs)) cwdSubs)
      else
        (false, fsCopy2 fs3 videoWithAudio outputFile)

/-- The stage structure of `create_video_with_segments` (video_creator.py,
lines 576–619): Stage 1 (concat video) and Stage 2 (audio mux) have single
variants whose failure aborts with `False`; Stage 3 delegates to
`try_add_subtitles` and the function returns `True` regardless of whether
subtitles were attached. -/
def create_video_pipeline (s1 s2 o1 o2 o3 o4 : Bool) (fs0 : FS)
    (narrationFile subtitleFile outputFile tempDir : String) : Bool × FS :=
  let videoTemp := tempDir ++ "/temp_video.mp4"
  if s1 then
    let fs1 := fsWrite fs0 videoTemp (concatVideo (tempDir ++ "/image_list.txt"))
    let videoWithAudio := tempDir ++ "/video_with_audio.mp4"
    if s2 then
      let fs2 := fsWrite fs1 videoWithAudio (muxed videoTemp narrationFile)
      let r := try_add_subtitles o1 o2 o3 o4 fs2 videoWithAudio subtitleFile outputFile tempDir
      (true, r.2)
    else (false, fs1)
  else (false, fs0)

/-- One parsed SRT subtitle entry (pixabay_image_fetcher.py, lines 58–64). -/
structure Subtitle where
  start_seconds : ℚ
  end_seconds : ℚ
  text : List Char
  deriving Repr, DecidableEq

/-- One grouped segment (pixabay_image_fetcher.py, lines 111–143). -/
structure SegGroup where
  start_seconds : ℚ
  end_seconds : ℚ
  text : List Char
  subtitles : List Subtitle
  deriving Repr, DecidableEq

/-- Finalizing a segment sets `end_seconds` from its last subtitle
(the subtitle list is never empty at that point; 0 is a dummy default). -/
def finalizeSeg (start : ℚ) (txt : List Char) (subs : List Subtitle) : SegGroup :=
  { start_seconds := start
    end_seconds := (subs.getLast?).elim 0 Subtitle.end_seconds
    text := txt
    subtitles := subs }

/-- The grouping loop of `group_subtitles_by_segments`
(pixabay_image_fetcher.py, lines 117–143): start a new segment when the
next subtitle begins at least `segDur` seconds after the current segment's
start, else append it to the current segment. -/
def groupSubsLoop (segDur : ℚ) : ℚ → List Char → List Subtitle → List Subtitle → List SegGroup
  | start, txt, acc, [] => if acc.isEmpty then [] else [finalizeSeg start txt acc]
  | start, txt, acc, sub :: rest =>
    if segDur ≤ sub.start_seconds - start then
      finalizeSeg start txt acc :: groupSubsLoop segDur sub.start_seconds sub.text [sub] rest
    else
      groupSubsLoop segDur start (txt ++ ' ' :: sub.text) (acc ++ [sub]) rest

/-- `group_subtitles_by_segments` (pixabay_image_fetcher.py, lines 96–145);
the source's `segment_duration` parameter defaults to 30 at its only call
site. -/
def group_subtitles_by_segments (segDur : ℚ) (subs : List Subtitle) : List SegGroup :=
  match subs with
  | [] => []
  | s :: rest => groupSubsLoop segDur s.start_seconds s.text [s] rest

/-- Right-strip only (helper to reason about `pystrip`): drop trailing
whitespace. -/
def pyRstrip (s : List Char) : List Char :=
  (s.reverse.dropWhile pyIsSpace).reverse

/-- The group text accumulated by the merge loop: every chunk of the group
followed by one space (`current_group += p + " "`). -/
def joinSp (g : List (List Char)) : List Char :=
  g.flatMap (fun p => p ++ [' '])

/-- Modelled from the spec (claim C5's description, for comparison with the
code): extend the asset list by cyclic repetition, the i-th appended
element being `assets[i % len(assets)]`. -/
def specCyclicExtend (target : ℕ) (imgs : List String) : List String :=
  imgs ++ (List.range (target - imgs.length)).map (fun i => imgs.getD (i % imgs.length) "")

/-- Integer-arithmetic twin of `mergeLoop` (the flush condition
`(i+1) % (C/A) < 1` rewritten as `(i+1)*A % C < A`), used to evaluate the
merge on concrete inputs. -/
def mergeLoopN (C A : ℕ) : ℕ → List Char → List (List Char) → List (List Char)
  | _, _, [] => []
  | i, cur, p :: rest =>
    if (i + 1) * A % C < A ∨ i = C - 1 then
      pystrip (cur ++ p ++ [' ']) :: mergeLoopN C A (i + 1) [] rest
    else mergeLoopN C A (i + 1) (cur ++ p ++ [' ']) rest

/-- Claim C7: the Subtitle Formatter truncates (never rounds) the
hour/minute/second components and derives the milliseconds from the
fractional remainder; a segment with start 61.5 and end 63.25 renders the
timing line `00:01:01,500 --> 00:01:03,250`, and a timestamp of 1.9996
seconds renders as `00:00:01,999` (truncated, not rounded to 2.000). -/
theorem C7_format_time_truncates :
    timingLine (123 / 2 : ℚ) (253 / 4 : ℚ) = "00:01:01,500 --> 00:01:03,250" ∧
    format_time (19996 / 10000 : ℚ) = "00:00:01,999" := by
  refine ⟨?_, ?_⟩ <;> · simp only [timingLine, format_time, pyInt, pyMod]
                        norm_num
                        decide

theorem totalLen_cons (s : List Char) (l : List (List Char)) :
    totalLen (s :: l) = s.length + totalLen l := by
  simp [totalLen]

theorem length_le_totalLen {s : List Char} {l : List (List Char)} (h : s ∈ l) :
    s.length ≤ totalLen l := by
  induction l with
  | nil => cases h
  | cons x xs ih =>
    rcases List.mem_cons.mp h with h | h
    · subst h; rw [totalLen_cons]; exact Nat.le_add_right _ _
    · exact le_trans (ih h) (by rw [totalLen_cons]; exact Nat.le_add_left _ _)

theorem pystrip_nil : pystrip [] = [] := rfl

theorem pystrip_ne_nil_of {s : List Char} (h : pystrip s ≠ []) : s ≠ [] := by
  intro hs; exact h (hs ▸ pystrip_nil)

theorem lastEnd_nil (t : ℚ) : lastEnd t [] = t := rfl

theorem lastEnd_cons (t : ℚ) (c : Cue) (cs : List Cue) :
    lastEnd t (c :: cs) = lastEnd c.endTime cs := rfl

theorem cueLoop_contiguous (total : ℚ) (tc : ℕ) (l : List (List Char)) :
    ∀ t : ℚ, contiguousFrom t (cueLoop total tc t l) := by
  induction l with
  | nil => intro t; trivial
  | cons s rest ih =>
    intro t
    simp only [cueLoop]
    split
    · exact ih t
    · exact ⟨rfl, ih _⟩

theorem cueLoop_lastEnd (total : ℚ) (tc : ℕ) (l : List (List Char))
    (hws : ∀ s ∈ l, pystrip s ≠ []) :
    ∀ t : ℚ, lastEnd t (cueLoop total tc t l) = t + total * ((totalLen l : ℚ) / (tc : ℚ)) := by
  induction l with
  | nil => intro t; simp [cueLoop, lastEnd, totalLen]
  | cons s rest ih =>
    intro t
    simp only [cueLoop]
    rw [if_neg (hws s (by simp))]
    rw [lastEnd_cons]
    rw [ih (fun x hx => hws x (by simp [hx]))]
    rw [totalLen_cons]
    push_cast
    ring

theorem cueLoop_ne_nil (total : ℚ) (tc : ℕ) (s : List Char) (l : List (List Char))
    (hs : pystrip s ≠ []) (t : ℚ) : cueLoop total tc t (s :: l) ≠ [] := by
  simp only [cueLoop]
  rw [if_neg hs]
  exact List.cons_ne_nil _ _

theorem cueLoop_durations (total : ℚ) (tc : ℕ) (l : List (List Char))
    (hws : ∀ s ∈ l, pystrip s ≠ []) :
    ∀ t : ℚ, (cueLoop total tc t l).map (fun c => c.endTime - c.startTime) =
      l.map (fun s => total * ((s.length : ℚ) / (tc : ℚ))) := by
  induction l with
  | nil => intro t; simp [cueLoop]
  | cons s rest ih =>
    intro t
    simp only [cueLoop]
    rw [if_neg (hws s (by simp))]
    simp only [List.map_cons]
    rw [ih (fun x hx => hws x (by simp [hx]))]
    simp

theorem cueLoop_pos (total : ℚ) (tc : ℕ) (hpos : 0 < total) (l : List (List Char))
    (hle : ∀ s ∈ l, s.length ≤ tc) :
    ∀ t : ℚ, ∀ c ∈ cueLoop total tc t l, c.startTime < c.endTime := by
  induction l with
  | nil => intro t c hc; cases hc
  | cons s rest ih =>
    intro t c hc
    simp only [cueLoop] at hc
    by_cases hs : pystrip s = []
    · rw [if_pos hs] at hc
      exact ih (fun x hx => hle x (by simp [hx])) t c hc
    · rw [if_neg hs] at hc
      rcases List.mem_cons.mp hc with hc | hc
      · subst hc
        simp only
        have hlen : 0 < s.length := by
          have := pystrip_ne_nil_of hs
          cases s with
          | nil => exact absurd rfl this
          | cons a b => simp
        have htc : 0 < tc := lt_of_lt_of_le hlen (hle s (by simp))
        have : 0 < total * ((s.length : ℚ) / (tc : ℚ)) := by
          apply mul_pos hpos
          apply div_pos
          · exact_mod_cast hlen
          · exact_mod_cast htc
        linarith
      · exact ih (fun x hx => hle x (by simp [hx])) _ c hc

/-- Claim C1 (amended): for every non-empty chunk sequence whose chunks all
survive `strip()` and every positive `total_duration`, the cues produced by
the sentence-proportional Timeline Synchronizer
(`create_subtitles_for_audio`) partition `[0, total_duration]` exactly:
the sequence is non-empty and contiguous from 0 (the first start is 0 and
each end equals the next start), and the last end equals `total_duration`
exactly (so certainly within 1 ms); the word-wrapping variant
`generate_subtitles` does not satisfy this (see its counterexample). -/
theorem C1_sentence_synchronizer_partitions (total : ℚ) (sents : List (List Char))
    (hne : sents ≠ []) (hws : ∀ s ∈ sents, pystrip s ≠ []) (hpos : 0 < total) :
    create_subtitles_for_audio total sents ≠ [] ∧
    contiguousFrom 0 (create_subtitles_for_audio total sents) ∧
    lastEnd 0 (create_subtitles_for_audio total sents) = total := by
  obtain ⟨s, rest, rfl⟩ : ∃ s rest, sents = s :: rest := by
    cases sents with
    | nil => exact absurd rfl hne
    | cons a b => exact ⟨a, b, rfl⟩
  refine ⟨cueLoop_ne_nil _ _ _ _ (hws _ (by simp)) _, cueLoop_contiguous _ _ _ _, ?_⟩
  rw [create_subtitles_for_audio, cueLoop_lastEnd _ _ _ hws]
  have hs : s ≠ [] := pystrip_ne_nil_of (hws s (by simp))
  have htc : (0 : ℚ) < ((totalLen (s :: rest) : ℕ) : ℚ) := by
    have h1 : 0 < s.length := List.length_pos.mpr hs
    have h2 : 0 < totalLen (s :: rest) := lt_of_lt_of_le h1 (length_le_totalLen (by simp))
    exact_mod_cast h2
  rw [div_self (ne_of_gt htc)]
  ring

theorem C1_sentence_synchronizer_partitions_witness :
    ([['a'], ['b', 'c']] : List (List Char)) ≠ [] ∧
    (∀ s ∈ ([['a'], ['b', 'c']] : List (List Char)), pystrip s ≠ []) ∧
    (0 : ℚ) < 5 ∧
    (create_subtitles_for_audio 5 [['a'], ['b', 'c']] ≠ [] ∧
     contiguousFrom 0 (create_subtitles_for_audio 5 [['a'], ['b', 'c']]) ∧
     lastEnd 0 (create_subtitles_for_audio 5 [['a'], ['b', 'c']]) = 5) :=
  ⟨by decide, by decide, by norm_num,
   C1_sentence_synchronizer_partitions 5 [['a'], ['b', 'c']] (by decide) (by decide) (by norm_num)⟩

/-- Claim C1 counterexample: the word-wrapping Timeline Synchronizer variant
(`generate_subtitles`, video_creator.py lines 319–387) violates the
partition property. For the script "ab cd" (5 characters) and
`total_duration = 60` it emits a single cue ending at 72 seconds: the
line-character accounting (each word counted as `len(word) + 1` against a
`total_chars = len(script)` that counts the separator once) overshoots the
total duration by 12 seconds, far beyond the 1 ms tolerance. -/
theorem C1_counterexample_word_wrap :
    lastEnd 0 (generate_subtitles 60 ['a', 'b', ' ', 'c', 'd']) = 72 ∧
    ¬ |lastEnd 0 (generate_subtitles 60 ['a', 'b', ' ', 'c', 'd']) - 60| ≤ 1 / 1000 := by
  have hw : pySplitWs ['a', 'b', ' ', 'c', 'd'] = [['a', 'b'], ['c', 'd']] := by decide
  have h : lastEnd 0 (generate_subtitles 60 ['a', 'b', ' ', 'c', 'd']) = 72 := by
    simp only [generate_subtitles, hw, genLoop, List.length_cons, List.length_nil]
    norm_num [lastEnd]
    simp
  refine ⟨h, ?_⟩
  rw [h]
  norm_num

/-- Claim C2: each chunk is allocated `duration = total_duration *
(char_weight / Σ char_weight)` (the char weight being the chunk's length)
and the segments are laid end to end starting at 0; in particular chunks
with weights [10, 20, 30] and a total duration of 60 yield the (start, end)
pairs (0,10), (10,30), (30,60). -/
theorem C2_proportional_allocation (total : ℚ) (chunks : List (List Char))
    (hws : ∀ s ∈ chunks, pystrip s ≠ []) (hpos : 0 < total) :
    ((create_subtitles_for_audio total chunks).map (fun c => c.endTime - c.startTime) =
      chunks.map (fun s => total * ((s.length : ℚ) / (totalLen chunks : ℚ)))) ∧
    contiguousFrom 0 (create_subtitles_for_audio total chunks) ∧
    create_subtitles_for_audio 60
        [List.replicate 10 'a', List.replicate 20 'b', List.replicate 30 'c'] =
      [{ startTime := 0, endTime := 10, text := List.replicate 10 'a' },
       { startTime := 10, endTime := 30, text := List.replicate 20 'b' },
       { startTime := 30, endTime := 60, text := List.replicate 30 'c' }] := by
  refine ⟨cueLoop_durations total (totalLen chunks) chunks hws 0,
          cueLoop_contiguous _ _ _ _, ?_⟩
  have h10 : pystrip (List.replicate 10 'a') = List.replicate 10 'a' := by decide
  have h20 : pystrip (List.replicate 20 'b') = List.replicate 20 'b' := by decide
  have h30 : pystrip (List.replicate 30 'c') = List.replicate 30 'c' := by decide
  have htc : totalLen [List.replicate 10 'a', List.replicate 20 'b', List.replicate 30 'c'] = 60 := by
    decide
  simp only [create_subtitles_for_audio, htc, cueLoop, h10, h20, h30]
  norm_num

theorem C2_proportional_allocation_witness :
    (∀ s ∈ ([['x'], ['y', 'z']] : List (List Char)), pystrip s ≠ []) ∧
    (0 : ℚ) < 9 ∧
    (((create_subtitles_for_audio 9 [['x'], ['y', 'z']]).map
        (fun c => c.endTime - c.startTime) =
      ([['x'], ['y', 'z']] : List (List Char)).map
        (fun s => 9 * ((s.length : ℚ) / (totalLen [['x'], ['y', 'z']] : ℚ)))) ∧
     contiguousFrom 0 (create_subtitles_for_audio 9 [['x'], ['y', 'z']]) ∧
     create_subtitles_for_audio 60
         [List.replicate 10 'a', List.replicate 20 'b', List.replicate 30 'c'] =
       [{ startTime := 0, endTime := 10, text := List.replicate 10 'a' },
        { startTime := 10, endTime := 30, text := List.replicate 20 'b' },
        { startTime := 30, endTime := 60, text := List.replicate 30 'c' }]) :=
  ⟨by decide, by norm_num,
   C2_proportional_allocation 9 [['x'], ['y', 'z']] (by decide) (by norm_num)⟩

/-- Claim C6 (amended): the Subtitle Formatter contains no clamping logic;
instead every cue emitted by the sentence synchronizer has strictly
positive duration (`start < end`) whenever the total duration is positive,
because each emitted sentence has positive character weight.  (After
millisecond truncation a cue shorter than 1 ms can still render equal
start and end timestamps, and the word-wrap generator can even emit a cue
with `end = start` — see the counterexample — in both cases without any
clamp being applied.) -/
theorem C6_no_clamp_cues_strictly_positive (total : ℚ) (hpos : 0 < total)
    (sents : List (List Char)) :
    ∀ c ∈ create_subtitles_for_audio total sents, c.startTime < c.endTime :=
  cueLoop_pos total (totalLen sents) hpos sents (fun _ hs => length_le_totalLen hs) 0

theorem C6_no_clamp_cues_strictly_positive_witness :
    (0 : ℚ) < 1 ∧
    ∀ c ∈ create_subtitles_for_audio 1 [['a']], c.startTime < c.endTime :=
  ⟨by norm_num, C6_no_clamp_cues_strictly_positive 1 (by norm_num) [['a']]⟩

/-- Claim C6 counterexample: the Formatter does not clamp `end` to
`start + 0.001`.  When the first word of the script is 60 characters long,
`generate_subtitles` emits a first cue with empty text and
`end = start = 0` (`end <= start`), and the emitted end is not
`start + 0.001`. -/
theorem C6_counterexample_no_clamp :
    (generate_subtitles 10 (List.replicate 60 'a' ++ [' ', 'b'])).head? =
      some { startTime := 0, endTime := 0, text := [] } ∧
    ((0 : ℚ) ≤ 0 ∧ (0 : ℚ) ≠ 0 + 1 / 1000) := by
  have hw : pySplitWs (List.replicate 60 'a' ++ [' ', 'b']) =
      [List.replicate 60 'a', ['b']] := by decide
  constructor
  · simp only [generate_subtitles, hw, genLoop, List.length_replicate]
    norm_num
  · norm_num

theorem isEmpty_false_of_ne_nil {α : Type} {l : List α} (h : l ≠ []) : l.isEmpty = false := by
  cases l with
  | nil => exact absurd rfl h
  | cons a b => rfl

theorem finalizeSeg_props (start : ℚ) (txt : List Char) (acc : List Subtitle)
    (hne : acc ≠ []) (hhd : acc.head?.map Subtitle.start_seconds = some start) :
    (finalizeSeg start txt acc).subtitles ≠ [] ∧
    ((finalizeSeg start txt acc).subtitles.head?.map Subtitle.start_seconds =
      some (finalizeSeg start txt acc).start_seconds) ∧
    ((finalizeSeg start txt acc).subtitles.getLast?.map Subtitle.end_seconds =
      some (finalizeSeg start txt acc).end_seconds) := by
  obtain ⟨x, hx⟩ := Option.isSome_iff_exists.mp (List.getLast?_isSome.mpr hne)
  refine ⟨hne, ?_, ?_⟩
  · simpa [finalizeSeg] using hhd
  · simp [finalizeSeg, hx]

theorem groupSubsLoop_spec (segDur : ℚ) (l : List Subtitle) :
    ∀ (start : ℚ) (txt : List Char) (acc : List Subtitle),
      acc ≠ [] → acc.head?.map Subtitle.start_seconds = some start →
      groupSubsLoop segDur start txt acc l ≠ [] ∧
      (groupSubsLoop segDur start txt acc l).flatMap SegGroup.subtitles = acc ++ l ∧
      ∀ g ∈ groupSubsLoop segDur start txt acc l,
        g.subtitles ≠ [] ∧
        g.subtitles.head?.map Subtitle.start_seconds = some g.start_seconds ∧
        g.subtitles.getLast?.map Subtitle.end_seconds = some g.end_seconds := by
  induction l with
  | nil =>
    intro start txt acc hne hhd
    simp only [groupSubsLoop, isEmpty_false_of_ne_nil hne]
    refine ⟨by simp, by simp [finalizeSeg], ?_⟩
    intro g hg
    rcases List.mem_cons.mp hg with hg | hg
    · subst hg; exact finalizeSeg_props start txt acc hne hhd
    · cases hg
  | cons sub rest ih =>
    intro start txt acc hne hhd
    simp only [groupSubsLoop]
    by_cases hc : segDur ≤ sub.start_seconds - start
    · rw [if_pos hc]
      obtain ⟨ihne, ihflat, ihprops⟩ :=
        ih sub.start_seconds sub.text [sub] (by simp) (by simp)
      refine ⟨by simp, ?_, ?_⟩
      · simp only [List.flatMap_cons, ihflat, finalizeSeg]
        simp
      · intro g hg
        rcases List.mem_cons.mp hg with hg | hg
        · subst hg; exact finalizeSeg_props start txt acc hne hhd
        · exact ihprops g hg
    · rw [if_neg hc]
      obtain ⟨ihne, ihflat, ihprops⟩ :=
        ih start (txt ++ ' ' :: sub.text) (acc ++ [sub]) (by simp)
          (by cases acc with
              | nil => exact absurd rfl hne
              | cons a b => simpa using hhd)
      refine ⟨ihne, ?_, ihprops⟩
      rw [ihflat]
      simp

/-- Claim C10: for every non-empty subtitle list,
`group_subtitles_by_segments` partitions its input into consecutive runs:
the concatenation of the returned segments' subtitle lists is exactly the
input (nothing dropped or duplicated, order preserved), at least one
segment is returned, and every segment's `start_seconds` equals its first
subtitle's start while its `end_seconds` equals its last subtitle's end. -/
theorem C10_group_subtitles_partitions (segDur : ℚ) (subs : List Subtitle)
    (hne : subs ≠ []) :
    group_subtitles_by_segments segDur subs ≠ [] ∧
    (group_subtitles_by_segments segDur subs).flatMap SegGroup.subtitles = subs ∧
    ∀ g ∈ group_subtitles_by_segments segDur subs,
      g.subtitles ≠ [] ∧
      g.subtitles.head?.map Subtitle.start_seconds = some g.start_seconds ∧
      g.subtitles.getLast?.map Subtitle.end_seconds = some g.end_seconds := by
  obtain ⟨s, rest, rfl⟩ : ∃ s rest, subs = s :: rest := by
    cases subs with
    | nil => exact absurd rfl hne
    | cons a b => exact ⟨a, b, rfl⟩
  obtain ⟨h1, h2, h3⟩ := groupSubsLoop_spec segDur rest s.start_seconds s.text [s]
    (by simp) (by simp)
  exact ⟨h1, by simpa using h2, h3⟩

theorem C10_group_subtitles_partitions_witness :
    (([⟨0, 2, ['h', 'i']⟩, ⟨40, 41, ['y', 'o']⟩] : List Subtitle) ≠ []) ∧
    (group_subtitles_by_segments 30 [⟨0, 2, ['h', 'i']⟩, ⟨40, 41, ['y', 'o']⟩] ≠ [] ∧
     (group_subtitles_by_segments 30
         [⟨0, 2, ['h', 'i']⟩, ⟨40, 41, ['y', 'o']⟩]).flatMap SegGroup.subtitles =
       [⟨0, 2, ['h', 'i']⟩, ⟨40, 41, ['y', 'o']⟩] ∧
     ∀ g ∈ group_subtitles_by_segments 30 [⟨0, 2, ['h', 'i']⟩, ⟨40, 41, ['y', 'o']⟩],
       g.subtitles ≠ [] ∧
       g.subtitles.head?.map Subtitle.start_seconds = some g.start_seconds ∧
       g.subtitles.getLast?.map Subtitle.end_seconds = some g.end_seconds) :=
  ⟨by simp,
   C10_group_subtitles_partitions 30 [⟨0, 2, ['h', 'i']⟩, ⟨40, 41, ['y', 'o']⟩] (by simp)⟩

theorem manifestLoop_eq_flatMap (l : List (String × ℚ)) :
    manifestLoop l =
      l.flatMap (fun pd => [ManifestLine.file pd.1, ManifestLine.duration pd.2]) := by
  induction l with
  | nil => rfl
  | cons pd rest ih => cases pd; simp [manifestLoop, ih]

theorem manifestLoop_length (l : List (String × ℚ)) :
    (manifestLoop l).length = 2 * l.length := by
  induction l with
  | nil => rfl
  | cons pd rest ih => cases pd; simp [manifestLoop, ih]; ring

/-- Claim C8: for every aligned (asset, duration) list, the Stage-1 manifest
consists of alternating `file`/`duration` lines — one pair per entry, in
input order — followed by the final asset's `file` line emitted once more
with no `duration` line after it (it is the manifest's last line, and the
manifest has exactly `2 * n + 1` lines). -/
theorem C8_manifest_alternates_with_final_file (images : List String) (durs : List ℚ)
    (hne : images ≠ []) (hlen : images.length = durs.length) :
    buildManifest images durs =
      (images.zip durs).flatMap
        (fun pd => [ManifestLine.file pd.1, ManifestLine.duration pd.2]) ++
        [ManifestLine.file (images.getLast hne)] ∧
    (buildManifest images durs).getLast? = some (ManifestLine.file (images.getLast hne)) ∧
    (buildManifest images durs).length = 2 * images.length + 1 := by
  have hb : buildManifest images durs =
      manifestLoop (images.zip durs) ++ [ManifestLine.file (images.getLast hne)] := by
    unfold buildManifest
    rw [List.getLast?_eq_getLast _ hne]
  refine ⟨?_, ?_, ?_⟩
  · rw [hb, manifestLoop_eq_flatMap]
  · rw [hb]
    exact List.getLast?_concat _
  · rw [hb]
    simp [manifestLoop_length, List.length_zip, ← hlen]

theorem C8_manifest_alternates_with_final_file_witness :
    (["img1", "img2"] : List String) ≠ [] ∧
    (["img1", "img2"] : List String).length = ([3, 4] : List ℚ).length ∧
    (buildManifest ["img1", "img2"] [3, 4] =
      ((["img1", "img2"] : List String).zip ([3, 4] : List ℚ)).flatMap
        (fun pd => [ManifestLine.file pd.1, ManifestLine.duration pd.2]) ++
        [ManifestLine.file ((["img1", "img2"] : List String).getLast (by simp))] ∧
     (buildManifest ["img1", "img2"] [3, 4]).getLast? =
       some (ManifestLine.file ((["img1", "img2"] : List String).getLast (by simp))) ∧
     (buildManifest ["img1", "img2"] [3, 4]).length =
       2 * (["img1", "img2"] : List String).length + 1) :=
  ⟨by simp, by simp,
   C8_manifest_alternates_with_final_file ["img1", "img2"] [3, 4] (by simp) (by simp)⟩

/-- Claim C3: when every Stage-3 subtitle variant fails (all four oracles
false) but Stages 1 and 2 succeeded, the pipeline copies the Stage-2
audio-muxed artifact verbatim to the final output path (the output content
equals the `video_with_audio.mp4` content exactly) and
`create_video_with_segments` still returns success (`True`). -/
theorem C3_stage3_exhaustion_degrades_to_stage2 (fs0 : FS) (sc : String)
    (hsub : fsRead fs0 "temp/subtitles/subtitles.srt" = some sc) :
    (create_video_pipeline true true false false false false fs0
      "temp/audio/narration.mp3" "temp/subtitles/subtitles.srt" "output_video.mp4" "temp").1
      = true ∧
    fsRead (create_video_pipeline true true false false false false fs0
      "temp/audio/narration.mp3" "temp/subtitles/subtitles.srt" "output_video.mp4" "temp").2
      "output_video.mp4" =
      some (muxed "temp/temp_video.mp4" "temp/audio/narration.mp3") ∧
    fsRead (create_video_pipeline true true false false false false fs0
      "temp/audio/narration.mp3" "temp/subtitles/subtitles.srt" "output_video.mp4" "temp").2
      "temp/video_with_audio.mp4" =
      some (muxed "temp/temp_video.mp4" "temp/audio/narration.mp3") := by
  simp only [fsRead] at hsub
  simp [create_video_pipeline, try_add_subtitles, fsCopy2, fsRead, fsWrite, List.find?, hsub]

theorem C3_stage3_exhaustion_degrades_to_stage2_witness :
    fsRead [("temp/subtitles/subtitles.srt", "SUBS")] "temp/subtitles/subtitles.srt" =
      some "SUBS" ∧
    ((create_video_pipeline true true false false false false
        [("temp/subtitles/subtitles.srt", "SUBS")]
        "temp/audio/narration.mp3" "temp/subtitles/subtitles.srt" "output_video.mp4"
        "temp").1 = true ∧
     fsRead (create_video_pipeline true true false false false false
        [("temp/subtitles/subtitles.srt", "SUBS")]
        "temp/audio/narration.mp3" "temp/subtitles/subtitles.srt" "output_video.mp4"
        "temp").2 "output_video.mp4" =
       some (muxed "temp/temp_video.mp4" "temp/audio/narration.mp3") ∧
     fsRead (create_video_pipeline true true false false false false
        [("temp/subtitles/subtitles.srt", "SUBS")]
        "temp/audio/narration.mp3" "temp/subtitles/subtitles.srt" "output_video.mp4"
        "temp").2 "temp/video_with_audio.mp4" =
       some (muxed "temp/temp_video.mp4" "temp/audio/narration.mp3")) :=
  ⟨rfl, C3_stage3_exhaustion_degrades_to_stage2
    [("temp/subtitles/subtitles.srt", "SUBS")] "SUBS" rfl⟩

theorem extendAssets_aux (k : ℕ) :
    ∀ (target : ℕ) (imgs : List String), imgs ≠ [] → target - imgs.length ≤ k →
      extendAssets target imgs =
        imgs ++ List.replicate (target - imgs.length) imgs.headI := by
  induction k with
  | zero =>
    intro target imgs hne hk
    match imgs, hne with
    | x :: xs, _ =>
      have h : ¬ (x :: xs).length < target := by omega
      rw [extendAssets, if_neg h]
      have h0 : target - (x :: xs).length = 0 := by omega
      rw [h0]
      simp
  | succ k ih =>
    intro target imgs hne hk
    match imgs, hne with
    | x :: xs, _ =>
      by_cases h : (x :: xs).length < target
      · rw [extendAssets, if_pos h]
        have hget : (x :: xs).get
            ⟨(x :: xs).length % (x :: xs).length, Nat.mod_lt _ (Nat.succ_pos _)⟩ = x := by
          have hfin : (⟨(x :: xs).length % (x :: xs).length,
              Nat.mod_lt _ (Nat.succ_pos _)⟩ : Fin (x :: xs).length) =
              ⟨0, Nat.succ_pos _⟩ := Fin.ext (Nat.mod_self _)
          rw [hfin]
          rfl
        rw [hget]
        rw [ih target ((x :: xs) ++ [x]) (by simp)
            (by simp only [List.length_append, List.length_cons, List.length_nil] at hk h ⊢
                omega)]
        have hrep : target - (x :: xs).length =
            (target - ((x :: xs) ++ [x]).length) + 1 := by
          simp at h ⊢
          omega
        rw [hrep]
        simp [List.replicate_succ]
      · rw [extendAssets, if_neg h]
        have h0 : target - (x :: xs).length = 0 := by omega
        rw [h0]
        simp

/-- Claim C5 (amended): the asset-extension loop appends
`images[len(images) % len(images)]`, and `len(images) % len(images)` is
always 0, so every appended element is the *first* asset: the extended list
is `assets ++ replicate (target - len(assets)) assets[0]` — not a cyclic
repetition through all original assets. -/
theorem C5_extension_repeats_first_asset (target : ℕ) (imgs : List String)
    (hne : imgs ≠ []) :
    extendAssets target imgs =
      imgs ++ List.replicate (target - imgs.length) imgs.headI :=
  extendAssets_aux target target imgs hne (Nat.sub_le _ _)

theorem C5_extension_repeats_first_asset_witness :
    (["a", "b"] : List String) ≠ [] ∧
    extendAssets 5 ["a", "b"] =
      ["a", "b"] ++ List.replicate (5 - (["a", "b"] : List String).length)
        (["a", "b"] : List String).headI :=
  ⟨by simp, C5_extension_repeats_first_asset 5 ["a", "b"] (by simp)⟩

/-- Claim C5 counterexample: with 2 assets and 3 missing entries the code
extends `["a", "b"]` to `["a", "b", "a", "a", "a"]`, whereas the claimed
cyclic repetition `assets[i % len(assets)]` would give
`["a", "b", "a", "b", "a"]`; the two disagree (the appended assets do not
cycle through every original asset). -/
theorem C5_counterexample_not_cyclic :
    extendAssets 5 ["a", "b"] = ["a", "b", "a", "a", "a"] ∧
    specCyclicExtend 5 ["a", "b"] = ["a", "b", "a", "b", "a"] ∧
    extendAssets 5 ["a", "b"] ≠ specCyclicExtend 5 ["a", "b"] := by
  have h1 : extendAssets 5 ["a", "b"] = ["a", "b", "a", "a", "a"] := by
    rw [extendAssets_aux 5 5 ["a", "b"] (by simp) (by simp)]
    rfl
  have h2 : specCyclicExtend 5 ["a", "b"] = ["a", "b", "a", "b", "a"] := by decide
  refine ⟨h1, h2, ?_⟩
  rw [h1, h2]
  decide

theorem mem_dropWhile_of_not {p : Char → Bool} {x : Char} :
    ∀ {l : List Char}, x ∈ l → p x = false → x ∈ l.dropWhile p := by
  intro l
  induction l with
  | nil => intro h; cases h
  | cons c t ih =>
    intro hx hp
    rw [List.dropWhile_cons]
    by_cases hc : p c = true
    · rw [if_pos hc]
      rcases List.mem_cons.mp hx with hx | hx
      · subst hx; rw [hp] at hc; cases hc
      · exact ih hx hp
    · rw [if_neg hc]
      exact hx

theorem mem_pystrip {x : Char} {s : List Char} (hx : x ∈ s)
    (hp : pyIsSpace x = false) : x ∈ pystrip s := by
  unfold pystrip
  rw [List.mem_reverse]
  exact mem_dropWhile_of_not (by rw [List.mem_reverse]; exact mem_dropWhile_of_not hx hp) hp

theorem pystrip_ne_nil_of_mem {x : Char} {s : List Char} (hx : x ∈ s)
    (hp : pyIsSpace x = false) : pystrip s ≠ [] :=
  List.ne_nil_of_mem (mem_pystrip hx hp)

theorem head_dropWhile_false {p : Char → Bool} :
    ∀ {l : List Char} {h : Char} {t : List Char}, l.dropWhile p = h :: t → p h = false := by
  intro l
  induction l with
  | nil => intro h t hd; cases hd
  | cons c r ih =>
    intro h t hd
    rw [List.dropWhile_cons] at hd
    by_cases hc : p c = true
    · rw [if_pos hc] at hd
      exact ih hd
    · rw [if_neg hc] at hd
      cases hd
      exact Bool.of_not_eq_true hc

theorem exists_nonspace_of_pystrip_ne_nil {s : List Char} (h : pystrip s ≠ []) :
    ∃ x ∈ pystrip s, pyIsSpace x = false := by
  unfold pystrip at h ⊢
  obtain ⟨hd, tl, hx⟩ : ∃ hd tl,
      (s.dropWhile pyIsSpace).reverse.dropWhile pyIsSpace = hd :: tl := by
    cases hc : (s.dropWhile pyIsSpace).reverse.dropWhile pyIsSpace with
    | nil => rw [hc] at h; exact absurd rfl h
    | cons a b => exact ⟨a, b, rfl⟩
  refine ⟨hd, ?_, head_dropWhile_false hx⟩
  rw [List.mem_reverse, hx]
  simp

theorem consHead_mem {x : Char} {c : Char} {l : List (List Char)}
    (h : ∃ p ∈ l, x ∈ p) : ∃ p ∈ consHead c l, x ∈ p := by
  obtain ⟨p, hp, hx⟩ := h
  cases l with
  | nil => cases hp
  | cons q qs =>
    rcases List.mem_cons.mp hp with hp | hp
    · subst hp
      exact ⟨c :: p, by simp [consHead], by simp [hx]⟩
    · exact ⟨p, by simp [consHead, hp], hx⟩

theorem consHead_self_mem (c : Char) (l : List (List Char)) :
    ∃ p ∈ consHead c l, c ∈ p := by
  cases l with
  | nil => exact ⟨[c], by simp [consHead], by simp⟩
  | cons q qs => exact ⟨c :: q, by simp [consHead], by simp⟩

theorem splitNL_mem {x : Char} :
    ∀ {s : List Char}, x ∈ s → x ≠ '\n' → ∃ p ∈ splitNL s, x ∈ p := by
  intro s
  induction s with
  | nil => intro h; cases h
  | cons c rest ih =>
    intro hx hnl
    rw [splitNL]
    by_cases hc : c = '\n'
    · rw [if_pos hc]
      rcases List.mem_cons.mp hx with hx | hx
      · exact absurd (hx.trans hc) hnl
      · obtain ⟨p, hp, hxp⟩ := ih hx hnl
        exact ⟨p, by simp [hp], hxp⟩
    · rw [if_neg hc]
      rcases List.mem_cons.mp hx with hx | hx
      · subst hx
        exact consHead_self_mem x _
      · exact consHead_mem (ih hx hnl)

theorem splitSentAux_mem {x : Char} (hws : pyIsSpace x = false) :
    ∀ (s : List Char) (skip : Bool) (acc : List Char),
      (x ∈ acc ∨ x ∈ s) → ∃ p ∈ splitSentAux skip s acc, x ∈ p := by
  intro s
  induction s with
  | nil =>
    intro skip acc h
    rcases h with h | h
    · exact ⟨acc.reverse, by simp [splitSentAux], by simp [h]⟩
    · cases h
  | cons c rest ih =>
    intro skip acc h
    simp only [splitSentAux]
    by_cases h1 : (skip && pyIsSpace c) = true
    · rw [if_pos h1]
      rcases h with h | h
      · exact ih true acc (Or.inl h)
      · rcases List.mem_cons.mp h with h | h
        · subst h
          rw [Bool.and_eq_true] at h1
          rw [hws] at h1
          cases h1.2
        · exact ih true acc (Or.inr h)
    · rw [if_neg h1]
      by_cases h2 : (isSentEnd c && headIsSpace rest) = true
      · rw [if_pos h2]
        rcases h with h | h
        · exact ⟨(c :: acc).reverse, by simp, by simp [h]⟩
        · rcases List.mem_cons.mp h with h | h
          · subst h
            exact ⟨(x :: acc).reverse, by simp, by simp⟩
          · obtain ⟨p, hp, hxp⟩ := ih true [] (Or.inr h)
            exact ⟨p, by simp [hp], hxp⟩
      · rw [if_neg h2]
        rcases h with h | h
        · exact ih false (c :: acc) (Or.inl (by simp [h]))
        · rcases List.mem_cons.mp h with h | h
          · subst h
            exact ih false (x :: acc) (Or.inl (by simp))
          · exact ih false (c :: acc) (Or.inr h)

theorem groupLoop300_ne_nil_of_cur {cur : List Char} (hc : cur ≠ []) :
    ∀ l : List (List Char), groupLoop300 cur l ≠ [] := by
  intro l
  induction l generalizing cur with
  | nil => simp [groupLoop300, if_neg hc]
  | cons s rest ih =>
    simp only [groupLoop300]
    by_cases hfit : cur.length + s.length < 300
    · rw [if_pos hfit]
      apply ih
      rw [if_neg hc]
      simp
    · rw [if_neg hfit, if_neg hc]
      simp

theorem groupLoop300_ne_nil_of_mem {l : List (List Char)}
    (hw : ∃ s ∈ l, s ≠ []) : ∀ cur : List Char, groupLoop300 cur l ≠ [] := by
  induction l with
  | nil => obtain ⟨s, hs, _⟩ := hw; cases hs
  | cons s rest ih =>
    intro cur
    obtain ⟨w, hwmem, hwne⟩ := hw
    simp only [groupLoop300]
    by_cases hfit : cur.length + s.length < 300
    · rw [if_pos hfit]
      rcases List.mem_cons.mp hwmem with hww | hww
      · subst hww
        by_cases hc : cur = []
        · rw [if_pos hc]
          exact groupLoop300_ne_nil_of_cur hwne rest
        · rw [if_neg hc]
          exact groupLoop300_ne_nil_of_cur (by simp) rest
      · exact ih ⟨w, hww, hwne⟩ _
    · rw [if_neg hfit]
      rcases List.mem_cons.mp hwmem with hww | hww
      · subst hww
        intro habs
        exact groupLoop300_ne_nil_of_cur hwne rest (List.append_eq_nil.mp habs).2
      · intro habs
        exact ih ⟨w, hww, hwne⟩ _ (List.append_eq_nil.mp habs).2

theorem filtered_split_mem {f : List Char → List (List Char)} {script : List Char}
    {p : List Char} (hp : p ∈ ((f script).map pystrip).filter (· ≠ [])) :
    p ≠ [] ∧ ∃ q, p = pystrip q := by
  obtain ⟨hmem, hne⟩ := List.mem_filter.mp hp
  obtain ⟨q, _, hq⟩ := List.mem_map.mp hmem
  exact ⟨by simpa using hne, q, hq.symm⟩

theorem resplit_ne_nil {ps : List (List Char)}
    (hne : ps ≠ []) (hall : ∀ p ∈ ps, p ≠ [] ∧ ∃ q, p = pystrip q) :
    resplitBySentences ps ≠ [] := by
  obtain ⟨p, rest, rfl⟩ : ∃ p rest, ps = p :: rest := by
    cases ps with
    | nil => exact absurd rfl hne
    | cons a b => exact ⟨a, b, rfl⟩
  obtain ⟨hpne, q, hq⟩ := hall p (by simp)
  obtain ⟨x, hxmem, hxws⟩ :=
    exists_nonspace_of_pystrip_ne_nil (show pystrip q ≠ [] from hq ▸ hpne)
  have hxp : x ∈ p := hq ▸ hxmem
  obtain ⟨piece, hpiece, hxpiece⟩ := splitSentAux_mem hxws p false [] (Or.inr hxp)
  have hg : groupLoop300 [] (splitSentences p) ≠ [] :=
    groupLoop300_ne_nil_of_mem ⟨piece, hpiece, List.ne_nil_of_mem hxpiece⟩ []
  simp only [resplitBySentences, List.flatMap_cons]
  intro habs
  exact hg (List.append_eq_nil.mp habs).1

/-- Claim C9 (amended): the Text Segmenter never raises; for empty or
whitespace-only input `split_script_into_paragraphs` returns an *empty*
sequence (no `EmptyInputError` exists in the code — see the
counterexample), and for every input containing at least one
non-whitespace character it returns at least one chunk. -/
theorem C9_segmenter_nonempty_on_real_text (script : List Char)
    (hx : ∃ x ∈ script, pyIsSpace x = false) :
    split_script_into_paragraphs script ≠ [] := by
  obtain ⟨x, hxs, hxws⟩ := hx
  unfold split_script_into_paragraphs
  set p1 := ((splitNN script).map pystrip).filter (· ≠ []) with hp1
  set p2 := (if p1.length < 5 then ((splitNL script).map pystrip).filter (· ≠ []) else p1)
    with hp2
  have hp2all : ∀ p ∈ p2, p ≠ [] ∧ ∃ q, p = pystrip q := by
    intro p hp
    rw [hp2] at hp
    split at hp
    · exact filtered_split_mem hp
    · exact filtered_split_mem hp
  have hp2ne : p2 ≠ [] := by
    rw [hp2]
    split
    · have hxnl : x ≠ '\n' := by
        intro h'
        rw [h'] at hxws
        exact absurd hxws (by decide)
      obtain ⟨piece, hpiece, hxpiece⟩ := splitNL_mem hxs hxnl
      have hmem : pystrip piece ∈ ((splitNL script).map pystrip).filter (· ≠ []) := by
        apply List.mem_filter.mpr
        refine ⟨List.mem_map.mpr ⟨piece, hpiece, rfl⟩, ?_⟩
        simpa using pystrip_ne_nil_of_mem hxpiece hxws
      exact List.ne_nil_of_mem hmem
    · next h =>
        intro habs
        rw [habs] at h
        simp at h
  show (if p2.length < 5 ∨ 500 < maxLenOf p2 then resplitBySentences p2 else p2) ≠ []
  split
  · exact resplit_ne_nil hp2ne hp2all
  · exact hp2ne

theorem C9_segmenter_nonempty_on_real_text_witness :
    (∃ x ∈ (['h', 'i'] : List Char), pyIsSpace x = false) ∧
    split_script_into_paragraphs ['h', 'i'] ≠ [] :=
  ⟨by decide, C9_segmenter_nonempty_on_real_text ['h', 'i'] (by decide)⟩

/-- Claim C9 counterexample: `split_script_into_paragraphs` does *not* fail
with an `EmptyInputError` on empty or whitespace-only input — no such error
exists anywhere in the code; it simply returns the empty sequence, directly
contradicting "never returns an empty sequence". -/
theorem C9_counterexample_empty_input :
    split_script_into_paragraphs [] = [] ∧
    split_script_into_paragraphs [' ', '\n', '\n', '\t', ' '] = [] := by
  constructor <;> decide

theorem pyMod_nat_div_eq (C A k : ℕ) (hA : 0 < A) :
    pyMod (k : ℚ) ((C : ℚ) / (A : ℚ)) = (((k * A) % C : ℕ) : ℚ) / (A : ℚ) := by
  unfold pyMod
  have hAq : ((A : ℚ)) ≠ 0 := Nat.cast_ne_zero.mpr hA.ne'
  have h1 : (k : ℚ) / ((C : ℚ) / (A : ℚ)) = ((k * A : ℕ) : ℚ) / ((C : ℕ) : ℚ) := by
    push_cast
    rw [div_div_eq_mul_div]
  rw [h1, Rat.floor_natCast_div_natCast, ← Int.natCast_div]
  have hdm : k * A = C * ((k * A) / C) + (k * A) % C := (Nat.div_add_mod _ _).symm
  have hdmq : (k : ℚ) * (A : ℚ) =
      (C : ℚ) * (((k * A) / C : ℕ) : ℚ) + (((k * A) % C : ℕ) : ℚ) := by
    exact_mod_cast hdm
  have hcast : (((((k * A) / C : ℕ) : ℤ)) : ℚ) = (((k * A) / C : ℕ) : ℚ) := by
    push_cast
    rfl
  rw [hcast]
  field_simp
  linarith [hdmq]

theorem flush_iff (C A k : ℕ) (hA : 0 < A) :
    (pyMod (k : ℚ) ((C : ℚ) / (A : ℚ)) < 1) ↔ (k * A) % C < A := by
  rw [pyMod_nat_div_eq C A k hA]
  rw [div_lt_one (by exact_mod_cast hA)]
  exact_mod_cast Iff.rfl

theorem flush_count_card (C A : ℕ) (hA : 0 < A) (hAC : A ≤ C) :
    ((Finset.Icc 1 C).filter (fun k => k * A % C < A)).card = A := by
  have hC : 0 < C := lt_of_lt_of_le hA hAC
  have key : ((Finset.Icc 1 C).filter (fun k => k * A % C < A)).card =
      (Finset.Icc 1 A).card := by
    apply Finset.card_bij' (fun k _ => k * A / C) (fun m _ => (m * C + A - 1) / A)
    · intro k hk
      obtain ⟨hk1, hkmod⟩ := Finset.mem_filter.mp hk
      obtain ⟨hk1lo, hk1hi⟩ := Finset.mem_Icc.mp hk1
      have hge : A ≤ k * A := Nat.le_mul_of_pos_left A hk1lo
      have hqle : k * A / C ≤ A := by
        have h1 : k * A ≤ C * A := Nat.mul_le_mul_right A hk1hi
        have h2 : k * A / C ≤ C * A / C := Nat.div_le_div_right h1
        rwa [Nat.mul_div_cancel_left A hC] at h2
      have hdm := Nat.div_add_mod (k * A) C
      rw [Finset.mem_Icc]
      generalize hq : k * A / C = q at hdm hqle
      refine ⟨?_, hqle⟩
      rcases Nat.eq_zero_or_pos q with hq0 | hq0
      · exfalso
        rw [hq0] at hdm
        simp at hdm
        omega
      · exact hq0
    · intro m hm
      obtain ⟨hm1, hm2⟩ := Finset.mem_Icc.mp hm
      have hdm := Nat.div_add_mod (m * C + A - 1) A
      have hslt : (m * C + A - 1) % A < A := Nat.mod_lt _ hA
      have hmC : C ≤ m * C := Nat.le_mul_of_pos_left C hm1
      have hmCA : m * C ≤ A * C := Nat.mul_le_mul_right C hm2
      generalize hk : (m * C + A - 1) / A = k at hdm
      generalize hs : (m * C + A - 1) % A = s at hdm hslt
      rw [Nat.mul_comm A k] at hdm
      have hlow : m * C ≤ k * A := by omega
      have hhigh : k * A < m * C + A := by omega
      have hk1 : 1 ≤ k := by
        rcases Nat.eq_zero_or_pos k with hk0 | hk0
        · exfalso
          rw [hk0] at hdm
          simp at hdm
          omega
        · exact hk0
      have hkC : k ≤ C := by
        have h4 : (C + 1) * A = C * A + A := by ring
        have h2 : m * C ≤ C * A := by
          rw [Nat.mul_comm C A]
          exact hmCA
        have h1 : k * A < (C + 1) * A := by
          rw [h4]
          omega
        have := lt_of_mul_lt_mul_right h1 (Nat.zero_le A)
        omega
      have hdivC : k * A / C = m := by
        apply Nat.div_eq_of_lt_le
        · exact hlow
        · have h5 : (m + 1) * C = m * C + C := by ring
          rw [h5]
          omega
      have hmod : k * A % C < A := by
        have hdm2 := Nat.div_add_mod (k * A) C
        rw [hdivC, Nat.mul_comm C m] at hdm2
        omega
      exact Finset.mem_filter.mpr ⟨Finset.mem_Icc.mpr ⟨hk1, hkC⟩, hmod⟩
    · intro k hk
      obtain ⟨hk1, hkmod⟩ := Finset.mem_filter.mp hk
      have hdm := Nat.div_add_mod (k * A) C
      generalize hq : k * A / C = q at hdm ⊢
      rw [Nat.mul_comm C q] at hdm
      apply Nat.div_eq_of_lt_le
      · omega
      · have h5 : (k + 1) * A = k * A + A := by ring
        rw [h5]
        omega
    · intro m hm
      obtain ⟨hm1, hm2⟩ := Finset.mem_Icc.mp hm
      have hdm := Nat.div_add_mod (m * C + A - 1) A
      have hslt : (m * C + A - 1) % A < A := Nat.mod_lt _ hA
      have hmC : C ≤ m * C := Nat.le_mul_of_pos_left C hm1
      generalize hk : (m * C + A - 1) / A = k at hdm ⊢
      generalize hs : (m * C + A - 1) % A = s at hdm hslt
      rw [Nat.mul_comm A k] at hdm
      have hlow : m * C ≤ k * A := by omega
      have hhigh : k * A < m * C + A := by omega
      apply Nat.div_eq_of_lt_le
      · exact hlow
      · have h5 : (m + 1) * C = m * C + C := by ring
        rw [h5]
        omega
  rw [key, Nat.card_Icc]
  omega

theorem mergeCond_iff (C A i : ℕ) (hA : 0 < A) :
    (pyMod ((i : ℚ) + 1) ((C : ℚ) / (A : ℚ)) < 1 ∨ i = C - 1) ↔
    ((i + 1) * A % C < A ∨ i = C - 1) := by
  have h := flush_iff C A (i + 1) hA
  constructor
  · rintro (hc | hc)
    · left
      apply h.mp
      rwa [Nat.cast_add, Nat.cast_one]
    · exact Or.inr hc
  · rintro (hc | hc)
    · left
      rw [show ((i : ℚ) + 1) = (((i + 1 : ℕ)) : ℚ) by push_cast; ring]
      exact h.mpr hc
    · exact Or.inr hc

theorem mergeLoop_eq_mergeLoopN (C A : ℕ) (hA : 0 < A) :
    ∀ (l : List (List Char)) (i : ℕ) (cur : List Char),
      mergeLoop C A i cur l = mergeLoopN C A i cur l := by
  intro l
  induction l with
  | nil => intro i cur; rfl
  | cons p rest ih =>
    intro i cur
    simp only [mergeLoop, mergeLoopN]
    by_cases h : (i + 1) * A % C < A ∨ i = C - 1
    · rw [if_pos ((mergeCond_iff C A i hA).mpr h), if_pos h, ih]
    · rw [if_neg (fun hq => h ((mergeCond_iff C A i hA).mp hq)), if_neg h, ih]

theorem joinSp_append (g : List (List Char)) (p : List Char) :
    joinSp (g ++ [p]) = joinSp g ++ (p ++ [' ']) := by
  simp [joinSp]

theorem mergeLoop_eq_groups (C A : ℕ) :
    ∀ (l : List (List Char)) (i : ℕ) (curG : List (List Char)),
      mergeLoop C A i (joinSp curG) l =
        (mergeGroupsLoop C A i curG l).map (fun g => pystrip (joinSp g)) := by
  intro l
  induction l with
  | nil => intro i curG; rfl
  | cons p rest ih =>
    intro i curG
    simp only [mergeLoop, mergeGroupsLoop]
    by_cases h : pyMod ((i : ℚ) + 1) ((C : ℚ) / (A : ℚ)) < 1 ∨ i = C - 1
    · rw [if_pos h, if_pos h]
      simp only [List.map_cons]
      have h2 := ih (i + 1) []
      rw [show joinSp ([] : List (List Char)) = [] from rfl] at h2
      rw [show joinSp curG ++ p ++ [' '] = joinSp (curG ++ [p]) by
        rw [joinSp_append, List.append_assoc]]
      rw [h2]
    · rw [if_neg h, if_neg h]
      have h2 := ih (i + 1) (curG ++ [p])
      rw [joinSp_append, ← List.append_assoc] at h2
      exact h2

theorem mergeGroupsLoop_flatten (C A : ℕ) :
    ∀ (l : List (List Char)) (i : ℕ) (cur : List (List Char)),
      i + l.length = C → l ≠ [] →
      (mergeGroupsLoop C A i cur l).flatten = cur ++ l := by
  intro l
  induction l with
  | nil => intro i cur _ hne; exact absurd rfl hne
  | cons p rest ih =>
    intro i cur hlen _
    simp only [mergeGroupsLoop]
    cases rest with
    | nil =>
      have hi : i = C - 1 := by simp at hlen; omega
      rw [if_pos (Or.inr hi)]
      simp [mergeGroupsLoop]
    | cons q tail =>
      by_cases h : pyMod ((i : ℚ) + 1) ((C : ℚ) / (A : ℚ)) < 1 ∨ i = C - 1
      · rw [if_pos h]
        simp only [List.flatten_cons]
        rw [ih (i + 1) [] (by simp at hlen ⊢; omega) (by simp)]
        simp
      · rw [if_neg h]
        rw [ih (i + 1) (cur ++ [p]) (by simp at hlen ⊢; omega) (by simp)]
        simp

theorem mergeGroupsLoop_length (C A : ℕ) (hA : 0 < A) :
    ∀ (l : List (List Char)) (i : ℕ) (cur : List (List Char)),
      i + l.length = C →
      (mergeGroupsLoop C A i cur l).length =
        ((List.range' (i + 1) l.length).filter (fun k => decide (k * A % C < A))).length := by
  intro l
  induction l with
  | nil => intro i cur _; rfl
  | cons p rest ih =>
    intro i cur hlen
    simp only [mergeGroupsLoop, List.length_cons, List.range'_succ, List.filter_cons]
    have habs : (pyMod ((i : ℚ) + 1) ((C : ℚ) / (A : ℚ)) < 1 ∨ i = C - 1) ↔
        (i + 1) * A % C < A := by
      rw [mergeCond_iff C A i hA]
      constructor
      · rintro (h | h)
        · exact h
        · subst h
          have hC1 : C - 1 + 1 = C := by simp at hlen; omega
          rw [hC1, Nat.mul_mod_right]
          exact hA
      · exact Or.inl
    by_cases h : (i + 1) * A % C < A
    · rw [if_pos (habs.mpr h), if_pos (decide_eq_true h)]
      simp only [List.length_cons]
      rw [ih (i + 1) [] (by simp at hlen ⊢; omega)]
    · rw [if_neg (fun hq => h (habs.mp hq)), if_neg (by simp [h])]
      rw [ih (i + 1) (cur ++ [p]) (by simp at hlen ⊢; omega)]

theorem filter_range'_length_eq_card (C : ℕ) (p : ℕ → Prop) [DecidablePred p] :
    ((List.range' 1 C).filter (fun k => decide (p k))).length =
      ((Finset.Icc 1 C).filter p).card := by
  rw [Nat.Icc_eq_range']
  show _ = Finset.card (Finset.filter p ⟨↑(List.range' 1 (C + 1 - 1)), _⟩)
  simp only [Nat.add_sub_cancel]
  rfl

theorem mergeGroups_length (chunks : List (List Char)) (A : ℕ) (hA : 0 < A)
    (hAC : A ≤ chunks.length) :
    (mergeGroups chunks A).length = A := by
  unfold mergeGroups
  rw [mergeGroupsLoop_length chunks.length A hA chunks 0 [] (by simp)]
  rw [show (0 + 1) = 1 from rfl]
  rw [filter_range'_length_eq_card chunks.length (fun k => k * A % chunks.length < A)]
  exact flush_count_card chunks.length A hA hAC

theorem length_dropWhile_le (p : Char → Bool) (l : List Char) :
    (l.dropWhile p).length ≤ l.length := by
  induction l with
  | nil => simp
  | cons c t ih =>
    rw [List.dropWhile_cons]
    by_cases hc : p c = true
    · rw [if_pos hc]
      exact le_trans ih (by simp)
    · rw [if_neg hc]

theorem dropWhile_eq_self_of_length {p : Char → Bool} :
    ∀ {l : List Char}, (l.dropWhile p).length = l.length → l.dropWhile p = l := by
  intro l
  induction l with
  | nil => intro _; simp
  | cons c t _ =>
    intro h
    rw [List.dropWhile_cons] at h ⊢
    by_cases hc : p c = true
    · rw [if_pos hc] at h
      have := length_dropWhile_le p t
      simp at h
      omega
    · rw [if_neg hc]

theorem pystrip_fixed_parts {s : List Char} (h : pystrip s = s) :
    s.dropWhile pyIsSpace = s ∧ s.reverse.dropWhile pyIsSpace = s.reverse := by
  have hlen : s.length = (((s.dropWhile pyIsSpace).reverse.dropWhile pyIsSpace).reverse).length := by
    rw [show ((s.dropWhile pyIsSpace).reverse.dropWhile pyIsSpace).reverse = pystrip s from rfl, h]
  have h1 : (s.dropWhile pyIsSpace).length = s.length := by
    have hle1 := length_dropWhile_le pyIsSpace s
    have hle2 := length_dropWhile_le pyIsSpace (s.dropWhile pyIsSpace).reverse
    simp at hlen
    simp at hle2
    omega
  have hfix1 : s.dropWhile pyIsSpace = s := dropWhile_eq_self_of_length h1
  refine ⟨hfix1, ?_⟩
  have h2 : pystrip s = (s.reverse.dropWhile pyIsSpace).reverse := by
    unfold pystrip
    rw [hfix1]
  rw [h2] at h
  exact List.reverse_eq_iff.mp h

theorem head_false_of_dropWhile_self {p : Char → Bool} {c : Char} {t : List Char}
    (h : (c :: t).dropWhile p = c :: t) : p c = false := by
  rw [List.dropWhile_cons] at h
  by_cases hc : p c = true
  · rw [if_pos hc] at h
    have := length_dropWhile_le p t
    have : (c :: t).length ≤ t.length := by rw [← h]; exact this
    simp at this
  · exact Bool.of_not_eq_true hc

theorem pyRstrip_append (a b : List Char) (hb : pyRstrip b ≠ []) :
    pyRstrip (a ++ b) = a ++ pyRstrip b := by
  have hb2 : (b.reverse.dropWhile pyIsSpace).isEmpty = false := by
    unfold pyRstrip at hb
    cases hx : b.reverse.dropWhile pyIsSpace with
    | nil => rw [hx] at hb; simp at hb
    | cons u v => rfl
  unfold pyRstrip
  rw [List.reverse_append, List.dropWhile_append, if_neg (by rw [hb2]; simp)]
  rw [List.reverse_append, List.reverse_reverse]

theorem pyRstrip_joinSp :
    ∀ (g : List (List Char)), g ≠ [] → (∀ p ∈ g, p ≠ [] ∧ pystrip p = p) →
      pyRstrip (joinSp g) = List.intercalate [' '] g ∧ List.intercalate [' '] g ≠ [] := by
  intro g
  induction g with
  | nil => intro h; exact absurd rfl h
  | cons p rest ih =>
    intro _ hall
    obtain ⟨hpne, hpfix⟩ := hall p (by simp)
    have hrev : p.reverse.dropWhile pyIsSpace = p.reverse := (pystrip_fixed_parts hpfix).2
    cases rest with
    | nil =>
      constructor
      · show pyRstrip (joinSp [p]) = _
        have hj : joinSp [p] = p ++ [' '] := by simp [joinSp]
        rw [hj]
        unfold pyRstrip
        rw [List.reverse_append]
        rw [show ([' '] : List Char).reverse = [' '] from rfl]
        rw [show ([' '] : List Char) ++ p.reverse = ' ' :: p.reverse from rfl]
        rw [List.dropWhile_cons, if_pos (by decide), hrev, List.reverse_reverse]
        simp [List.intercalate]
      · simpa [List.intercalate] using hpne
    | cons q t =>
      obtain ⟨ih1, ih2⟩ := ih (by simp) (fun x hx => hall x (by simp [hx]))
      have hj : joinSp (p :: q :: t) = (p ++ [' ']) ++ joinSp (q :: t) := by
        simp [joinSp]
      have hrne : pyRstrip (joinSp (q :: t)) ≠ [] := by rw [ih1]; exact ih2
      constructor
      · rw [hj, pyRstrip_append _ _ hrne, ih1]
        rw [show List.intercalate [' '] (p :: q :: t) =
          p ++ [' '] ++ List.intercalate [' '] (q :: t) by simp [List.intercalate]]
      · rw [show List.intercalate [' '] (p :: q :: t) =
          p ++ [' '] ++ List.intercalate [' '] (q :: t) by simp [List.intercalate]]
        simp

theorem pystrip_joinSp (g : List (List Char)) (hg : g ≠ [])
    (hall : ∀ p ∈ g, p ≠ [] ∧ pystrip p = p) :
    pystrip (joinSp g) = List.intercalate [' '] g := by
  obtain ⟨p, rest, rfl⟩ : ∃ p rest, g = p :: rest := by
    cases g with
    | nil => exact absurd rfl hg
    | cons a b => exact ⟨a, b, rfl⟩
  obtain ⟨hpne, hpfix⟩ := hall p (by simp)
  obtain ⟨c, t, rfl⟩ : ∃ c t, p = c :: t := by
    cases p with
    | nil => exact absurd rfl hpne
    | cons a b => exact ⟨a, b, rfl⟩
  have hcws : pyIsSpace c = false :=
    head_false_of_dropWhile_self (pystrip_fixed_parts hpfix).1
  have hdrop : (joinSp ((c :: t) :: rest)).dropWhile pyIsSpace = joinSp ((c :: t) :: rest) := by
    have hj : joinSp ((c :: t) :: rest) = c :: (t ++ [' '] ++ joinSp rest) := by
      simp [joinSp]
    rw [hj, List.dropWhile_cons, if_neg (by rw [hcws]; simp)]
  have hps : pystrip (joinSp ((c :: t) :: rest)) = pyRstrip (joinSp ((c :: t) :: rest)) := by
    unfold pystrip pyRstrip
    rw [hdrop]
  rw [hps]
  exact (pyRstrip_joinSp ((c :: t) :: rest) (by simp) hall).1

theorem mergeGroupsLoop_ne_nil (C A : ℕ) :
    ∀ (l : List (List Char)) (i : ℕ) (cur : List (List Char)),
      ∀ g ∈ mergeGroupsLoop C A i cur l, g ≠ [] := by
  intro l
  induction l with
  | nil => intro i cur g hg; cases hg
  | cons p rest ih =>
    intro i cur g hg
    simp only [mergeGroupsLoop] at hg
    by_cases h : pyMod ((i : ℚ) + 1) ((C : ℚ) / (A : ℚ)) < 1 ∨ i = C - 1
    · rw [if_pos h] at hg
      rcases List.mem_cons.mp hg with hg | hg
      · subst hg; simp
      · exact ih (i + 1) [] g hg
    · rw [if_neg h] at hg
      exact ih (i + 1) (cur ++ [p]) g hg

/-- Claim C4 (amended): whenever there are more chunks than assets (with at
least one asset, and chunks as the Segmenter emits them: non-empty and
already stripped), the merge combines adjacent chunks — order-preserving
and dropping no text characters — into exactly `len(assets)` groups, each
merged chunk being its group's texts joined by single spaces; the group
sizes are *not* `ceil(len(chunks)/len(assets))` with a remainder in the
last group, but the balanced partition determined by the flush condition
`(i+1) % (len(chunks)/len(assets)) < 1` (equivalently
`(i+1)*A % C < A`); in particular 5 chunks and 2 assets yield 2 merged
chunks of sizes 3 and 2 (`"a b c"`, `"d e"`), paired with the original 2
assets by `reconcile`. -/
theorem C4_merge_balanced_groups (chunks : List (List Char)) (A : ℕ)
    (hA : 0 < A) (hlt : A < chunks.length)
    (htrim : ∀ p ∈ chunks, p ≠ [] ∧ pystrip p = p) :
    mergeChunks chunks A = (mergeGroups chunks A).map (fun g => List.intercalate [' '] g) ∧
    (mergeGroups chunks A).flatten = chunks ∧
    (mergeGroups chunks A).length = A ∧
    reconcile [['a'], ['b'], ['c'], ['d'], ['e']] ["img1", "img2"] =
      ([['a', ' ', 'b', ' ', 'c'], ['d', ' ', 'e']], ["img1", "img2"]) := by
  have hchne : chunks ≠ [] := by
    intro h
    rw [h] at hlt
    simp at hlt
  have hflat : (mergeGroups chunks A).flatten = chunks :=
    mergeGroupsLoop_flatten chunks.length A chunks 0 [] (by simp) hchne
  have hmap : mergeChunks chunks A =
      (mergeGroups chunks A).map (fun g => pystrip (joinSp g)) := by
    unfold mergeChunks mergeGroups
    have h := mergeLoop_eq_groups chunks.length A chunks 0 []
    rw [show joinSp ([] : List (List Char)) = [] from rfl] at h
    exact h
  refine ⟨?_, hflat, mergeGroups_length chunks A hA (le_of_lt hlt), ?_⟩
  · rw [hmap]
    apply List.map_congr_left
    intro g hg
    apply pystrip_joinSp g (mergeGroupsLoop_ne_nil _ _ chunks 0 [] g hg)
    intro p hp
    apply htrim
    rw [← hflat]
    exact List.mem_flatten.mpr ⟨g, hg, hp⟩
  · have hm : mergeChunks [['a'], ['b'], ['c'], ['d'], ['e']] 2 =
        [['a', ' ', 'b', ' ', 'c'], ['d', ' ', 'e']] := by
      rw [mergeChunks, mergeLoop_eq_mergeLoopN _ _ (by norm_num)]
      decide
    unfold reconcile
    simp only [List.length_cons, List.length_nil]
    rw [if_pos (by norm_num), hm]
    simp only [List.length_cons, List.length_nil]
    rw [show extendAssets 2 ["img1", "img2"] = ["img1", "img2"] from by
      rw [extendAssets_aux 0 _ _ (by simp) (by simp)]
      simp]
    simp

theorem C4_merge_balanced_groups_witness :
    0 < 2 ∧ 2 < ([['a'], ['b'], ['c'], ['d'], ['e']] : List (List Char)).length ∧
    (∀ p ∈ ([['a'], ['b'], ['c'], ['d'], ['e']] : List (List Char)),
      p ≠ [] ∧ pystrip p = p) ∧
    (mergeChunks [['a'], ['b'], ['c'], ['d'], ['e']] 2 =
      (mergeGroups [['a'], ['b'], ['c'], ['d'], ['e']] 2).map
        (fun g => List.intercalate [' '] g) ∧
    (mergeGroups [['a'], ['b'], ['c'], ['d'], ['e']] 2).flatten =
      [['a'], ['b'], ['c'], ['d'], ['e']] ∧
    (mergeGroups [['a'], ['b'], ['c'], ['d'], ['e']] 2).length = 2 ∧
    reconcile [['a'], ['b'], ['c'], ['d'], ['e']] ["img1", "img2"] =
      ([['a', ' ', 'b', ' ', 'c'], ['d', ' ', 'e']], ["img1", "img2"])) :=
  ⟨by decide, by decide, by decide,
   C4_merge_balanced_groups [['a'], ['b'], ['c'], ['d'], ['e']] 2
     (by decide) (by decide) (by decide)⟩

/-- Claim C4 counterexample: with 7 chunks and 3 assets the code merges into
groups of sizes 3, 2, 2 (`"a b c"`, `"d e"`, `"f g"`), not into groups of
`ceil(7/3) = 3` chunks each with the remainder merged into the last group
(which would give `"a b c"`, `"d e f"`, `"g"`, or `"a b c"`, `"d e f g"`):
the middle group has only 2 chunks. -/
theorem C4_counterexample_not_ceil_groups :
    mergeChunks [['a'], ['b'], ['c'], ['d'], ['e'], ['f'], ['g']] 3 =
      [['a', ' ', 'b', ' ', 'c'], ['d', ' ', 'e'], ['f', ' ', 'g']] ∧
    mergeChunks [['a'], ['b'], ['c'], ['d'], ['e'], ['f'], ['g']] 3 ≠
      [['a', ' ', 'b', ' ', 'c'], ['d', ' ', 'e', ' ', 'f'], ['g']] ∧
    mergeChunks [['a'], ['b'], ['c'], ['d'], ['e'], ['f'], ['g']] 3 ≠
      [['a', ' ', 'b', ' ', 'c'], ['d', ' ', 'e', ' ', 'f', ' ', 'g']] := by
  have hm : mergeChunks [['a'], ['b'], ['c'], ['d'], ['e'], ['f'], ['g']] 3 =
      [['a', ' ', 'b', ' ', 'c'], ['d', ' ', 'e'], ['f', ' ', 'g']] := by
    rw [mergeChunks, mergeLoop_eq_mergeLoopN _ _ (by norm_num)]
    decide
  exact ⟨hm, by rw [hm]; decide, by rw [hm]; decide⟩
